import Mathlib

/-!
Verification of `PWGDQ/Core/MixingHandler.cxx` (event-mixing categorizer).

Embedding conventions:
* C++ `float` values and bin edges are modeled by exact rationals `ℚ`:
  every comparison the code performs on floats is an order comparison,
  which `ℚ` reproduces exactly.
* C++ `int` is modeled by unbounded `Int` (the code performs no wrapping
  and signed overflow is undefined behavior, treated as a precondition).
  C++ `%` and `/` truncate toward zero, so they are modeled by
  `Int.tmod` / `Int.tdiv`.
* The two parallel members `fVariables` (variable identifiers) and
  `fVariableLimits` (per-axis bin-edge arrays, `TArrayF`) are modeled by
  two lists; every state built through `AddMixingVariable` keeps them the
  same length.
* `VarManager::SetUseVariable` mutates a global usage registry; it is
  modeled by explicit state passing of a `VarRegistry`.
* The observable vector `float* values` is indexed by variable identifier,
  modeled as a total function `Nat → ℚ`.
* `TMath::BinarySearch(n, array, value)` is ROOT library code, not part of
  this repository; per its documentation, on a sorted array it returns the
  index of the largest element `≤ value`, and `-1` when `value` is below
  the first element. `binSearch` realizes exactly that contract.
-/

/-- State of one `MixingHandler` instance: initialization flag, ordered
variable identifiers, and the per-axis bin-edge sequences. -/
structure MixingHandler where
  fIsInitialized : Bool
  fVariables : List Nat
  fVariableLimits : List (List ℚ)
deriving Repr, DecidableEq

/-- The default-constructed handler: not initialized, no variables. -/
def MixingHandler.mk0 : MixingHandler := ⟨false, [], []⟩

/-- Global variable-usage registry mutated by `VarManager::SetUseVariable`.
Modelled from the spec: the registry of `VarManager` (declared in
`VarManager.h`, not under `src/`) records which observable identifiers
are in use. -/
structure VarRegistry where
  used : Nat → Bool

/-- Modelled from the spec: `VarManager::SetUseVariable(var)` marks the
identifier `var` as used in the registry. -/
def SetUseVariable (reg : VarRegistry) (var : Nat) : VarRegistry :=
  ⟨fun v => if v = var then true else reg.used v⟩

/-- `MixingHandler::AddMixingVariable(int var, int nBins, float* binLims)`:
appends `var` to `fVariables`, copies the first `nBins` entries of the
array `binLims` into a new `TArrayF` appended to `fVariableLimits`
(`TArrayF::Set(n, array)` copies exactly `n` elements), and registers the
variable as used. -/
def AddMixingVariable (h : MixingHandler) (reg : VarRegistry) (var : Nat)
    (nBins : Nat) (binLims : Nat → ℚ) : MixingHandler × VarRegistry :=
  ({ fIsInitialized := h.fIsInitialized,
     fVariables := h.fVariables ++ [var],
     fVariableLimits := h.fVariableLimits ++ [(List.range nBins).map binLims] },
   SetUseVariable reg var)

/-- `MixingHandler::AddMixingVariable(int var, int nBins, std::vector<float>
binLims)`: copies the first `nBins` vector entries into a temporary array
(`bins[i] = binLims[i]` for `i < nBins`) and delegates to the pointer
overload. Reading `binLims[i]` requires `i < binLims.size()`; out-of-range
reads (undefined in C++) are modeled by the default value `0`. -/
def AddMixingVariableVec (h : MixingHandler) (reg : VarRegistry) (var : Nat)
    (nBins : Nat) (binLims : List ℚ) : MixingHandler × VarRegistry :=
  AddMixingVariable h reg var nBins (fun i => binLims.getD i 0)

/-- `MixingHandler::GetMixingVariable(var)`: linear scan setting
`varNum = iVar` at every index whose identifier matches, starting from
`varNum = -1`. -/
def GetMixingVariable (h : MixingHandler) (var : Nat) : Int :=
  (List.range h.fVariables.length).foldl
    (fun varNum iVar =>
      if h.fVariables.getD iVar 0 = var then (iVar : Int) else varNum)
    (-1)

/-- `MixingHandler::GetMixingVariableLimits(var)`: concatenates the bin
edges of every axis whose identifier matches. -/
def GetMixingVariableLimits (h : MixingHandler) (var : Nat) : List ℚ :=
  (List.range h.fVariables.length).foldl
    (fun acc iVar =>
      if h.fVariables.getD iVar 0 = var then
        acc ++ h.fVariableLimits.getD iVar []
      else acc)
    []

/-- `MixingHandler::Init()`: computes the product of the per-axis bin
counts into a local `size` that is never stored (dead code in the source)
and sets `fIsInitialized = kTRUE`. -/
def MixingHandler.Init (h : MixingHandler) : MixingHandler :=
  { h with fIsInitialized := true }

/-- `TMath::BinarySearch(n, sortedArray, value)` on a sorted array: index
of the largest element `≤ value`, `-1` when the value is below the first
element (equivalently, the length of the longest prefix of elements
`≤ value`, minus one, when the array is ascending). -/
def binSearch : List ℚ → ℚ → Int
  | [], _ => -1
  | e :: rest, v => if v < e then -1 else binSearch rest v + 1

/-- The first loop of `FindEventCategory`: for each registered axis
`(var, lims)` in order, its bin `binValue = BinarySearch(lims, values[var])`;
if `binValue == -1` or `binValue == lims.size - 1` the whole call returns
`-1` (modeled by `none`), otherwise the pair
`(binValue, lims.size - 1)` (bin index and bin count) is collected. -/
def findBins : List (Nat × List ℚ) → (Nat → ℚ) → Option (List (Int × Int))
  | [], _ => some []
  | (var, lims) :: rest, values =>
      let binValue := binSearch lims (values var)
      if binValue = -1 ∨ binValue = (lims.length : Int) - 1 then none
      else (findBins rest values).map
        (fun bs => (binValue, (lims.length : Int) - 1) :: bs)

/-- The second loop of `FindEventCategory`: for each axis `iVar`, add
`bin[iVar] * ∏_{iVar2 > iVar} binCount[iVar2]` (the inner loop multiplies
`bin[iVar]` and then the later bin counts; integer multiplication
commutes, so the product is taken over the tail). -/
def encodeBins : List (Int × Int) → Int
  | [] => 0
  | (b, _) :: rest => b * (rest.foldl (fun t p => t * p.2) 1) + encodeBins rest

/-- `MixingHandler::FindEventCategory(values)`: returns `-1` for an empty
configuration; otherwise lazily calls `Init()`, bins every axis (returning
`-1` if any axis is out of range), and mixed-radix encodes the bins.
Returns the category together with the (possibly updated) handler state. -/
def FindEventCategory (h : MixingHandler) (values : Nat → ℚ) :
    Int × MixingHandler :=
  if h.fVariables.length = 0 then (-1, h)
  else
    let h' := if h.fIsInitialized then h else h.Init
    match findBins (h'.fVariables.zip h'.fVariableLimits) values with
    | none => (-1, h')
    | some bs => (encodeBins bs, h')

/-- `MixingHandler::GetBinFromCategory(var, category)`: returns `-1` for an
empty configuration; otherwise scans for the last index whose identifier
equals `var` into the local `tempVar`. `tempVar` is declared
uninitialized in the source; the arbitrary garbage value it holds when no
index matches is the explicit parameter `junk`. Then
`norm = ∏_{i > tempVar} (lims[i].size - 1)` (the source loop runs `i` from
`size-1` down to `tempVar+1`; multiplication commutes) and the result is
`((category - category % norm) / norm) % (lims[tempVar].size - 1)` with
C++ truncated `%` and `/`. -/
def GetBinFromCategory (h : MixingHandler) (var : Nat) (category : Int)
    (junk : Nat) : Int :=
  if h.fVariables.length = 0 then -1
  else
    let tempVar := (List.range h.fVariables.length).foldl
      (fun t i => if h.fVariables.getD i 0 = var then i else t) junk
    let norm : Int := (List.range' (tempVar + 1)
        (h.fVariables.length - (tempVar + 1))).foldl
      (fun n i => n * (((h.fVariableLimits.getD i []).length : Int) - 1)) 1
    let truncatedCategory := category - Int.tmod category norm
    let truncatedCategory := Int.tdiv truncatedCategory norm
    Int.tmod truncatedCategory
      (((h.fVariableLimits.getD tempVar []).length : Int) - 1)

/-- The total cell count computed by `Init`:
`∏_i (fVariableLimits[i].size - 1)` over the registered axes. -/
def totalCells (h : MixingHandler) : Int :=
  (h.fVariables.zip h.fVariableLimits).foldl
    (fun s p => s * ((p.2.length : Int) - 1)) 1

/-- Well-formedness maintained by registration: the two parallel lists
have equal length and (spec invariant) every axis has at least two edges. -/
def WF (h : MixingHandler) : Prop :=
  h.fVariables.length = h.fVariableLimits.length ∧
    ∀ l ∈ h.fVariableLimits, 2 ≤ l.length

/-- Spec precondition: every axis's edges are strictly ascending. -/
def SortedLims (h : MixingHandler) : Prop :=
  ∀ l ∈ h.fVariableLimits, l.Pairwise (· < ·)

/-- Every registered axis's value lies in the half-open range
`[firstEdge, lastEdge)` of that axis. -/
def InRange (h : MixingHandler) (values : Nat → ℚ) : Prop :=
  ∀ p ∈ h.fVariables.zip h.fVariableLimits,
    p.2.getD 0 0 ≤ values p.1 ∧ values p.1 < p.2.getD (p.2.length - 1) 0

/-- The two-axis configuration of the spec's concrete scenario: axis 0
with edges `[0, 10, 20, 30]` (3 bins) and axis 1 with edges `[-1, 1]`
(1 bin), registered in that order through `AddMixingVariable`. -/
def scenarioHandler : MixingHandler :=
  (AddMixingVariableVec
    (AddMixingVariableVec MixingHandler.mk0 ⟨fun _ => false⟩ 0 4 [0, 10, 20, 30]).1
    ⟨fun _ => false⟩ 1 2 [-1, 1]).1

/-- An observable vector assigning `x0` to variable 0 and `x1` to every
other identifier. -/
def scenarioValues (x0 x1 : ℚ) : Nat → ℚ := fun n => if n = 0 then x0 else x1

/-! ### Lemmas about `binSearch` -/

theorem binSearch_cons (e : ℚ) (rest : List ℚ) (v : ℚ) :
    binSearch (e :: rest) v = if v < e then -1 else binSearch rest v + 1 := rfl

theorem binSearch_ge (l : List ℚ) (v : ℚ) : -1 ≤ binSearch l v := by
  induction l with
  | nil => simp [binSearch]
  | cons e rest ih =>
    simp only [binSearch]
    split
    · exact le_refl _
    · omega

theorem binSearch_le (l : List ℚ) (v : ℚ) :
    binSearch l v ≤ (l.length : Int) - 1 := by
  induction l with
  | nil => simp [binSearch]
  | cons e rest ih =>
    simp only [binSearch, List.length_cons]
    split
    · push_cast; omega
    · push_cast; omega

theorem binSearch_cons_eq_neg_one (e : ℚ) (rest : List ℚ) (v : ℚ) :
    binSearch (e :: rest) v = -1 ↔ v < e := by
  simp only [binSearch]
  split
  · simp_all
  · have := binSearch_ge rest v
    constructor
    · intro hEq; omega
    · intro hv; simp_all

theorem binSearch_last_le (l : List ℚ) (v : ℚ)
    (hs : l.Pairwise (· < ·)) (hne : l ≠ [])
    (hv : l.getD (l.length - 1) 0 ≤ v) :
    binSearch l v = (l.length : Int) - 1 := by
  induction l with
  | nil => exact absurd rfl hne
  | cons e rest ih =>
    rcases List.Pairwise.of_cons hs with hsrest
    cases rest with
    | nil =>
      simp only [List.getD, List.length_cons] at hv
      simp only [binSearch, List.length_cons]
      rw [if_neg (not_lt.mpr (by simpa using hv))]
      simp
    | cons f rest' =>
      have hlen : (e :: f :: rest').length - 1 = (f :: rest').length - 1 + 1 := by
        simp
      have hv' : (f :: rest').getD ((f :: rest').length - 1) 0 ≤ v := by
        rw [hlen] at hv
        simpa using hv
      have hlast_mem : (f :: rest').getD ((f :: rest').length - 1) 0 ∈ (f :: rest') := by
        have : (f :: rest').length - 1 < (f :: rest').length := by simp
        rw [List.getD_eq_getElem _ _ this]
        exact List.getElem_mem _
      have he_lt : e < (f :: rest').getD ((f :: rest').length - 1) 0 :=
        (List.pairwise_cons.mp hs).1 _ hlast_mem
      have hev : e ≤ v := le_of_lt (lt_of_lt_of_le he_lt hv')
      rw [binSearch_cons, if_neg (not_lt.mpr hev), ih hsrest (by simp) hv']
      simp only [List.length_cons]
      push_cast
      ring

theorem binSearch_lt_of_lt_last (l : List ℚ) (v : ℚ)
    (hs : l.Pairwise (· < ·)) (hne : l ≠ [])
    (hv : v < l.getD (l.length - 1) 0) :
    binSearch l v < (l.length : Int) - 1 := by
  induction l with
  | nil => exact absurd rfl hne
  | cons e rest ih =>
    rcases List.Pairwise.of_cons hs with hsrest
    cases rest with
    | nil =>
      simp only [List.getD, List.length_cons] at hv
      simp only [binSearch]
      rw [if_pos (by simpa using hv)]
      simp
    | cons f rest' =>
      have hv' : v < (f :: rest').getD ((f :: rest').length - 1) 0 := by
        have hlen : (e :: f :: rest').length - 1 = (f :: rest').length - 1 + 1 := by
          simp
        rw [hlen] at hv
        simpa using hv
      rw [binSearch_cons]
      split
      · simp only [List.length_cons]; push_cast; omega
      · have := ih hsrest (by simp) hv'
        simp only [List.length_cons] at this ⊢
        push_cast at this ⊢
        omega

theorem binSearch_eq_iff (l : List ℚ) (v : ℚ) (hs : l.Pairwise (· < ·)) :
    ∀ i : Nat, i + 1 < l.length →
      (binSearch l v = (i : Int) ↔ l.getD i 0 ≤ v ∧ v < l.getD (i + 1) 0) := by
  induction l with
  | nil => intro i hi; simp at hi
  | cons e rest ih =>
    intro i hi
    cases i with
    | zero =>
      cases rest with
      | nil => simp at hi
      | cons f rest' =>
        rw [binSearch_cons]
        by_cases hv : v < e
        · rw [if_pos hv]
          simp only [List.getD_cons_zero, List.getD_cons_succ]
          constructor
          · intro hEq; exact absurd hEq (by decide)
          · rintro ⟨h1, _⟩; exact absurd hv (not_lt.mpr h1)
        · rw [if_neg hv]
          simp only [List.getD_cons_zero, List.getD_cons_succ]
          constructor
          · intro hEq
            have hm : binSearch (f :: rest') v = -1 := by omega
            exact ⟨not_lt.mp hv, (binSearch_cons_eq_neg_one f rest' v).mp hm⟩
          · rintro ⟨_, h2⟩
            have hm : binSearch (f :: rest') v = -1 :=
              (binSearch_cons_eq_neg_one f rest' v).mpr h2
            omega
    | succ j =>
      have hj : j + 1 < rest.length := by
        simp only [List.length_cons] at hi; omega
      rw [binSearch_cons]
      simp only [List.getD_cons_succ]
      by_cases hv : v < e
      · rw [if_pos hv]
        have hjm : rest.getD j 0 ∈ rest := by
          rw [List.getD_eq_getElem _ _ (by omega)]
          exact List.getElem_mem _
        have he_lt : e < rest.getD j 0 := (List.pairwise_cons.mp hs).1 _ hjm
        constructor
        · intro hEq; exact absurd hEq (by push_cast; omega)
        · rintro ⟨h1, _⟩; exact absurd (lt_trans hv (lt_of_lt_of_le he_lt h1)) (lt_irrefl v)
      · rw [if_neg hv]
        have := ih (List.Pairwise.of_cons hs) j hj
        constructor
        · intro hEq
          have : binSearch rest v = (j : Int) := by push_cast at hEq; omega
          exact (ih (List.Pairwise.of_cons hs) j hj).mp this
        · intro hR
          have := (ih (List.Pairwise.of_cons hs) j hj).mpr hR
          push_cast
          omega

/-! ### Lemmas about `findBins` and `encodeBins` -/

theorem findBins_none_of_mem (pairs : List (Nat × List ℚ)) (values : Nat → ℚ)
    (p : Nat × List ℚ) (hp : p ∈ pairs)
    (hbad : binSearch p.2 (values p.1) = -1 ∨
      binSearch p.2 (values p.1) = (p.2.length : Int) - 1) :
    findBins pairs values = none := by
  induction pairs with
  | nil => simp at hp
  | cons q rest ih =>
    obtain ⟨var, lims⟩ := q
    rcases List.mem_cons.mp hp with hq | hq
    · subst hq
      simp only [findBins]
      rw [if_pos hbad]
    · simp only [findBins]
      split
      · rfl
      · rw [ih hq]; rfl

theorem findBins_some (pairs : List (Nat × List ℚ)) (values : Nat → ℚ)
    (hgood : ∀ p ∈ pairs, binSearch p.2 (values p.1) ≠ -1 ∧
      binSearch p.2 (values p.1) ≠ (p.2.length : Int) - 1) :
    findBins pairs values =
      some (pairs.map (fun p => (binSearch p.2 (values p.1), (p.2.length : Int) - 1))) := by
  induction pairs with
  | nil => rfl
  | cons q rest ih =>
    obtain ⟨var, lims⟩ := q
    have hq := hgood (var, lims) (List.mem_cons_self _ _)
    simp only [findBins]
    rw [if_neg (by push_neg; exact hq)]
    rw [ih (fun p hp => hgood p (List.mem_cons_of_mem _ hp))]
    rfl

theorem findBins_bounds (pairs : List (Nat × List ℚ)) (values : Nat → ℚ) :
    ∀ bs, findBins pairs values = some bs → ∀ q ∈ bs, 0 ≤ q.1 ∧ q.1 < q.2 := by
  induction pairs with
  | nil =>
    intro bs hbs q hq
    simp only [findBins, Option.some_inj] at hbs
    subst hbs
    simp at hq
  | cons p rest ih =>
    intro bs hbs q hq
    obtain ⟨var, lims⟩ := p
    simp only [findBins] at hbs
    split at hbs
    · exact absurd hbs (by simp)
    · rename_i hnotbad
      push_neg at hnotbad
      rcases Option.map_eq_some'.mp hbs with ⟨bs', hbs', hcons⟩
      subst hcons
      rcases List.mem_cons.mp hq with hq1 | hq1
      · subst hq1
        have hge := binSearch_ge lims (values var)
        have hle := binSearch_le lims (values var)
        exact ⟨by omega, by omega⟩
      · exact ih bs' hbs' q hq1

theorem findBins_map_snd (pairs : List (Nat × List ℚ)) (values : Nat → ℚ) :
    ∀ bs, findBins pairs values = some bs →
      bs.map Prod.snd = pairs.map (fun p => (p.2.length : Int) - 1) := by
  induction pairs with
  | nil =>
    intro bs hbs
    simp only [findBins, Option.some_inj] at hbs
    subst hbs
    rfl
  | cons p rest ih =>
    intro bs hbs
    obtain ⟨var, lims⟩ := p
    simp only [findBins] at hbs
    split at hbs
    · exact absurd hbs (by simp)
    · rcases Option.map_eq_some'.mp hbs with ⟨bs', hbs', hcons⟩
      subst hcons
      simp only [List.map_cons]
      rw [ih bs' hbs']

theorem foldl_mul_map {α : Type} (f : α → Int) (l : List α) (a : Int) :
    l.foldl (fun t x => t * f x) a = a * (l.map f).prod := by
  induction l generalizing a with
  | nil => simp
  | cons x rest ih =>
    simp only [List.foldl_cons, List.map_cons, List.prod_cons, ih]
    ring

theorem encodeBins_cons (b c : Int) (rest : List (Int × Int)) :
    encodeBins ((b, c) :: rest) = b * (rest.map Prod.snd).prod + encodeBins rest := by
  simp only [encodeBins, foldl_mul_map, one_mul]

theorem encodeBins_bounds (bs : List (Int × Int))
    (h : ∀ q ∈ bs, 0 ≤ q.1 ∧ q.1 < q.2) :
    0 ≤ encodeBins bs ∧ encodeBins bs < (bs.map Prod.snd).prod := by
  induction bs with
  | nil => simp [encodeBins]
  | cons q rest ih =>
    obtain ⟨b, c⟩ := q
    obtain ⟨hb0, hbc⟩ := h (b, c) (List.mem_cons_self _ _)
    obtain ⟨h0, h1⟩ := ih (fun q hq => h q (List.mem_cons_of_mem _ hq))
    rw [encodeBins_cons, List.map_cons, List.prod_cons]
    have hP : 0 < (rest.map Prod.snd).prod := lt_of_le_of_lt h0 h1
    have hstep : (b + 1) * (rest.map Prod.snd).prod ≤ c * (rest.map Prod.snd).prod :=
      mul_le_mul_of_nonneg_right (by omega) (le_of_lt hP)
    constructor
    · exact add_nonneg (mul_nonneg hb0 (le_of_lt hP)) h0
    · nlinarith

theorem encodeBins_eq_sum (bs : List (Int × Int)) :
    encodeBins bs = ∑ i ∈ Finset.range bs.length,
      (bs.getD i (0, 1)).1 * ((bs.drop (i + 1)).map Prod.snd).prod := by
  induction bs with
  | nil => simp [encodeBins]
  | cons q rest ih =>
    obtain ⟨b, c⟩ := q
    rw [encodeBins_cons, List.length_cons, Finset.sum_range_succ']
    simp only [List.getD_cons_succ, List.getD_cons_zero, List.drop_succ_cons,
      List.drop_zero]
    rw [← ih]
    ring

/-! ### The mixed-radix round trip on natural numbers -/

theorem stable_aux (A b w n : Nat) (hw : 0 < w) :
    n / w % b = n % (A * b * w) / w % b := by
  conv_lhs => rw [← Nat.div_add_mod n (A * b * w)]
  rw [show A * b * w * (n / (A * b * w)) + n % (A * b * w)
      = w * (b * (A * (n / (A * b * w)))) + n % (A * b * w) by ring]
  rw [Nat.mul_add_div hw]
  rw [Nat.mul_add_mod]

theorem digit_stable (rest : List Nat) (i n : Nat) (hi : i < rest.length)
    (hP : 0 < rest.prod) :
    n / (rest.drop (i + 1)).prod % rest.getD i 1 =
      n % rest.prod / (rest.drop (i + 1)).prod % rest.getD i 1 := by
  have hP_eq : rest.prod =
      (rest.take i).prod * rest.getD i 1 * (rest.drop (i + 1)).prod := by
    rw [← List.prod_take_mul_prod_drop rest (i + 1)]
    congr 1
    rw [List.prod_take_succ rest i hi]
    congr 1
    rw [List.getD_eq_getElem _ _ hi]
  have hw0 : 0 < (rest.drop (i + 1)).prod := by
    rcases Nat.eq_zero_or_pos (rest.drop (i + 1)).prod with h0 | h0
    · rw [hP_eq, h0] at hP; simp at hP
    · exact h0
  rw [hP_eq]
  exact stable_aux _ _ _ n hw0

theorem natMixedRadix (bs : List Nat) : ∀ n : Nat, n < bs.prod →
    ∑ i ∈ Finset.range bs.length,
      n / (bs.drop (i + 1)).prod % bs.getD i 1 * (bs.drop (i + 1)).prod = n := by
  induction bs with
  | nil =>
    intro n hn
    simp only [List.prod_nil, Nat.lt_one_iff] at hn
    simp [hn]
  | cons b rest ih =>
    intro n hn
    rw [List.prod_cons] at hn
    have hP : 0 < rest.prod := by
      rcases Nat.eq_zero_or_pos rest.prod with h0 | h0
      · rw [h0, Nat.mul_zero] at hn; omega
      · exact h0
    rw [List.length_cons, Finset.sum_range_succ']
    simp only [List.drop_succ_cons, List.getD_cons_succ, List.getD_cons_zero,
      List.drop_zero]
    have hdiv : n / rest.prod < b :=
      (Nat.div_lt_iff_lt_mul hP).mpr (by rw [Nat.mul_comm] at hn ⊢; exact hn)
    rw [Nat.mod_eq_of_lt hdiv]
    have htail : ∀ i ∈ Finset.range rest.length,
        n / (rest.drop (i + 1)).prod % rest.getD i 1 * (rest.drop (i + 1)).prod
        = n % rest.prod / (rest.drop (i + 1)).prod % rest.getD i 1 *
            (rest.drop (i + 1)).prod := by
      intro i hi
      rw [digit_stable rest i n (Finset.mem_range.mp hi) hP]
    rw [Finset.sum_congr rfl htail, ih (n % rest.prod) (Nat.mod_lt n hP)]
    rw [Nat.mul_comm (n / rest.prod) rest.prod]
    exact Nat.mod_add_div n rest.prod

/-! ### List plumbing helpers -/

theorem zip_map_snd_fun {α β γ : Type} (g : β → γ) :
    ∀ (A : List α) (B : List β), A.length = B.length →
      (A.zip B).map (fun p => g p.2) = B.map g := by
  intro A
  induction A with
  | nil =>
    intro B hB
    cases B with
    | nil => rfl
    | cons b bs => simp at hB
  | cons a as ih =>
    intro B hB
    cases B with
    | nil => simp at hB
    | cons b bs =>
      simp only [List.zip_cons_cons, List.map_cons]
      rw [ih bs (by simpa using hB)]

theorem zip_drop {α β : Type} :
    ∀ (A : List α) (B : List β) (k : Nat),
      (A.zip B).drop k = (A.drop k).zip (B.drop k) := by
  intro A
  induction A with
  | nil => intro B k; simp
  | cons a as ih =>
    intro B k
    cases B with
    | nil => simp
    | cons b bs =>
      cases k with
      | zero => rfl
      | succ m => simpa using ih bs m

theorem getD_map_range {α : Type} (f : Nat → α) (d : α) (n i : Nat) (hi : i < n) :
    ((List.range n).map f).getD i d = f i := by
  rw [List.getD_eq_getElem _ _ (by simpa using hi)]
  simp

theorem range'_map_getD (L : List (List ℚ)) (f : List ℚ → Int) :
    ∀ k i, k = L.length - i →
      (List.range' i k).map (fun j => f (L.getD j [])) = (L.drop i).map f := by
  intro k
  induction k with
  | zero =>
    intro i hi
    rw [List.drop_eq_nil_of_le (by omega)]
    rfl
  | succ m ihm =>
    intro i hi
    have hiL : i < L.length := by omega
    rw [List.range'_succ, List.map_cons, ihm (i + 1) (by omega),
      List.drop_eq_getElem_cons hiL, List.map_cons]
    congr 1
    rw [List.getD_eq_getElem _ _ hiL]

/-! ### The linear scans (`varNum` in `GetMixingVariable`, `tempVar` in
`GetBinFromCategory`) -/

theorem scan_fold_indep (vars : List Nat) (var : Nat) :
    ∀ n : Nat, (∃ i, i < n ∧ vars.getD i 0 = var) →
      ∀ j1 j2 : Nat,
        (List.range n).foldl (fun t i => if vars.getD i 0 = var then i else t) j1 =
          (List.range n).foldl (fun t i => if vars.getD i 0 = var then i else t) j2 := by
  intro n
  induction n with
  | zero => rintro ⟨i, hi, _⟩; omega
  | succ m ihm =>
    rintro ⟨i, hi, hvar⟩ j1 j2
    rw [List.range_succ, List.foldl_append, List.foldl_append]
    simp only [List.foldl_cons, List.foldl_nil]
    by_cases hm : vars.getD m 0 = var
    · rw [if_pos hm, if_pos hm]
    · rw [if_neg hm, if_neg hm]
      have him : i < m := by
        rcases Nat.lt_succ_iff_lt_or_eq.mp hi with hlt | heq
        · exact hlt
        · subst heq; exact absurd hvar hm
      exact ihm ⟨i, him, hvar⟩ j1 j2

theorem scan_fold_last (vars : List Nat) (var : Nat) :
    ∀ n k : Nat, k < n → vars.getD k 0 = var →
      (∀ j, k < j → j < n → vars.getD j 0 ≠ var) →
      ∀ a : Nat,
        (List.range n).foldl (fun t i => if vars.getD i 0 = var then i else t) a = k := by
  intro n
  induction n with
  | zero => intro k hk; omega
  | succ m ihm =>
    intro k hk hkv hlast a
    rw [List.range_succ, List.foldl_append]
    simp only [List.foldl_cons, List.foldl_nil]
    rcases Nat.lt_succ_iff_lt_or_eq.mp hk with hkm | hkm
    · rw [if_neg (hlast m hkm (Nat.lt_succ_self m))]
      exact ihm k hkm hkv (fun j h1 h2 => hlast j h1 (Nat.lt_succ_of_lt h2)) a
    · subst hkm
      rw [if_pos hkv]

theorem scanInt_fold_none (vars : List Nat) (var : Nat) :
    ∀ n : Nat, (∀ i, i < n → vars.getD i 0 ≠ var) →
      ∀ a : Int,
        (List.range n).foldl
          (fun t i => if vars.getD i 0 = var then (i : Int) else t) a = a := by
  intro n
  induction n with
  | zero => intro _ a; rfl
  | succ m ihm =>
    intro hno a
    rw [List.range_succ, List.foldl_append]
    simp only [List.foldl_cons, List.foldl_nil]
    rw [if_neg (hno m (Nat.lt_succ_self m))]
    exact ihm (fun i hi => hno i (Nat.lt_succ_of_lt hi)) a

theorem scanInt_fold_last (vars : List Nat) (var : Nat) :
    ∀ n k : Nat, k < n → vars.getD k 0 = var →
      (∀ j, k < j → j < n → vars.getD j 0 ≠ var) →
      ∀ a : Int,
        (List.range n).foldl
          (fun t i => if vars.getD i 0 = var then (i : Int) else t) a = (k : Int) := by
  intro n
  induction n with
  | zero => intro k hk; omega
  | succ m ihm =>
    intro k hk hkv hlast a
    rw [List.range_succ, List.foldl_append]
    simp only [List.foldl_cons, List.foldl_nil]
    rcases Nat.lt_succ_iff_lt_or_eq.mp hk with hkm | hkm
    · rw [if_neg (hlast m hkm (Nat.lt_succ_self m))]
      exact ihm k hkm hkv (fun j h1 h2 => hlast j h1 (Nat.lt_succ_of_lt h2)) a
    · subst hkm
      rw [if_pos hkv]

/-! ### Structural lemmas about `FindEventCategory` -/

theorem Init_of_initialized (h : MixingHandler) (hi : h.fIsInitialized = true) :
    h.Init = h := by
  cases h
  simp only [MixingHandler.Init] at *
  simp [hi]

theorem FindEventCategory_fst (h : MixingHandler) (values : Nat → ℚ) :
    (FindEventCategory h values).1 =
      if h.fVariables.length = 0 then -1
      else
        match findBins (h.fVariables.zip h.fVariableLimits) values with
        | none => -1
        | some bs => encodeBins bs := by
  rw [FindEventCategory]
  by_cases hlen : h.fVariables.length = 0
  · rw [if_pos hlen, if_pos hlen]
  · rw [if_neg hlen, if_neg hlen]
    have hvars : (if h.fIsInitialized = true then h else h.Init).fVariables =
        h.fVariables := by
      cases h.fIsInitialized <;> rfl
    have hlims : (if h.fIsInitialized = true then h else h.Init).fVariableLimits =
        h.fVariableLimits := by
      cases h.fIsInitialized <;> rfl
    simp only [hvars, hlims]
    cases findBins (h.fVariables.zip h.fVariableLimits) values <;> rfl

theorem FindEventCategory_snd (h : MixingHandler) (values : Nat → ℚ) :
    (FindEventCategory h values).2 =
      if h.fVariables.length = 0 then h else h.Init := by
  rw [FindEventCategory]
  by_cases hlen : h.fVariables.length = 0
  · rw [if_pos hlen, if_pos hlen]
  · rw [if_neg hlen, if_neg hlen]
    have hif : (if h.fIsInitialized = true then h else h.Init) = h.Init := by
      cases hini : h.fIsInitialized
      · simp
      · simp [Init_of_initialized h hini]
    rw [hif]
    cases hfb : findBins (h.Init.fVariables.zip h.Init.fVariableLimits) values <;>
      simp [hfb]

/-! ### Characterizing `GetBinFromCategory` -/

theorem GetBinFromCategory_eq (h : MixingHandler) (var : Nat) (c : Int) (junk : Nat)
    (hlen : h.fVariables.length = h.fVariableLimits.length)
    (k : Nat) (hk : k < h.fVariables.length)
    (hkv : h.fVariables.getD k 0 = var)
    (hlast : ∀ j, k < j → j < h.fVariables.length → h.fVariables.getD j 0 ≠ var) :
    GetBinFromCategory h var c junk =
      Int.tmod (Int.tdiv (c - Int.tmod c (((h.fVariableLimits.drop (k + 1)).map
            (fun l => (l.length : Int) - 1)).prod))
          (((h.fVariableLimits.drop (k + 1)).map (fun l => (l.length : Int) - 1)).prod))
        (((h.fVariableLimits.getD k []).length : Int) - 1) := by
  have hne : ¬ h.fVariables.length = 0 := by omega
  rw [GetBinFromCategory, if_neg hne]
  rw [scan_fold_last h.fVariables var h.fVariables.length k hk hkv hlast junk]
  show Int.tmod (Int.tdiv (c - Int.tmod c ((List.range' (k + 1)
        (h.fVariables.length - (k + 1))).foldl
          (fun n i => n * (((h.fVariableLimits.getD i []).length : Int) - 1)) 1))
      ((List.range' (k + 1) (h.fVariables.length - (k + 1))).foldl
        (fun n i => n * (((h.fVariableLimits.getD i []).length : Int) - 1)) 1))
    (((h.fVariableLimits.getD k []).length : Int) - 1) = _
  rw [foldl_mul_map (fun i => (((h.fVariableLimits.getD i []).length : Int) - 1))
    (List.range' (k + 1) (h.fVariables.length - (k + 1))) 1]
  rw [one_mul]
  rw [range'_map_getD h.fVariableLimits (fun l => ((l.length : Int) - 1))
    (h.fVariables.length - (k + 1)) (k + 1) (by omega)]

theorem tmod_tdiv_digit (c W B : Int) (hc : 0 ≤ c) (hW : 0 < W) (hB : 0 ≤ B) :
    Int.tmod (Int.tdiv (c - Int.tmod c W) W) B = (c / W) % B := by
  have h1 : Int.tmod c W = c % W := Int.tmod_eq_emod hc (le_of_lt hW)
  have h2 : c - c % W = W * (c / W) := by
    have := Int.emod_add_ediv c W
    linarith
  rw [h1, h2, Int.mul_tdiv_cancel_left _ (ne_of_gt hW)]
  exact Int.tmod_eq_emod (Int.ediv_nonneg hc (le_of_lt hW)) hB

theorem prod_len_cast (L : List (List ℚ)) (hL : ∀ l ∈ L, 1 ≤ l.length) :
    (L.map (fun l => (l.length : Int) - 1)).prod =
      (((L.map (fun l => l.length - 1)).prod : Nat) : Int) := by
  induction L with
  | nil => simp
  | cons l rest ih =>
    simp only [List.map_cons, List.prod_cons]
    rw [ih (fun x hx => hL x (List.mem_cons_of_mem _ hx))]
    have h1 : 1 ≤ l.length := hL l (List.mem_cons_self _ _)
    rw [Nat.cast_mul, Nat.cast_sub h1, Nat.cast_one]

theorem prod_len_pos (L : List (List ℚ)) (hL : ∀ l ∈ L, 2 ≤ l.length) :
    0 < (L.map (fun l => l.length - 1)).prod := by
  apply List.prod_pos
  intro a ha
  rcases List.mem_map.mp ha with ⟨l, hl, hla⟩
  have := hL l hl
  omega

theorem drop_range_eq (n k : Nat) : (List.range n).drop k = List.range' k (n - k) := by
  apply List.ext_getElem
  · simp
  · intro i h1 h2
    simp [List.getElem_drop, List.getElem_range, List.getElem_range']

theorem map_range_getD_take (l : List ℚ) (n : Nat) (hn : n ≤ l.length) :
    (List.range n).map (fun i => l.getD i 0) = l.take n := by
  apply List.ext_getElem
  · simp [hn]
  · intro i h1 h2
    simp only [List.getElem_map, List.getElem_range, List.getElem_take]
    rw [List.getD_eq_getElem _ _ (by simp at h1; omega)]

theorem binSearch_bad_iff (l : List ℚ) (v : ℚ) (hs : l.Pairwise (· < ·))
    (h2 : 2 ≤ l.length) :
    (binSearch l v = -1 ∨ binSearch l v = (l.length : Int) - 1) ↔
      (v < l.getD 0 0 ∨ l.getD (l.length - 1) 0 ≤ v) := by
  have hne : l ≠ [] := by intro hl; subst hl; simp at h2
  obtain ⟨e, rest, rfl⟩ : ∃ e rest, l = e :: rest := by
    cases l with
    | nil => simp at h2
    | cons a as => exact ⟨a, as, rfl⟩
  constructor
  · rintro (h1 | h1)
    · left
      simpa using (binSearch_cons_eq_neg_one e rest v).mp h1
    · right
      by_contra hlt
      push_neg at hlt
      have := binSearch_lt_of_lt_last (e :: rest) v hs hne hlt
      omega
  · rintro (h1 | h1)
    · left
      exact (binSearch_cons_eq_neg_one e rest v).mpr (by simpa using h1)
    · right
      exact binSearch_last_le (e :: rest) v hs hne h1

theorem GetBinFromCategory_junk_indep (h : MixingHandler) (var : Nat) (c : Int)
    (hmem : var ∈ h.fVariables) (j1 j2 : Nat) :
    GetBinFromCategory h var c j1 = GetBinFromCategory h var c j2 := by
  rcases List.mem_iff_getElem.mp hmem with ⟨i, hi, hvi⟩
  have hne : ¬ h.fVariables.length = 0 := by omega
  rw [GetBinFromCategory, GetBinFromCategory, if_neg hne, if_neg hne]
  rw [scan_fold_indep h.fVariables var h.fVariables.length
    ⟨i, hi, by rw [List.getD_eq_getElem _ _ hi]; exact hvi⟩ j1 j2]

theorem scanInt_fold_nonneg (vars : List Nat) (var : Nat) :
    ∀ n : Nat, (∃ i, i < n ∧ vars.getD i 0 = var) →
      ∀ a : Int, 0 ≤ (List.range n).foldl
        (fun t i => if vars.getD i 0 = var then (i : Int) else t) a := by
  intro n
  induction n with
  | zero => rintro ⟨i, hi, _⟩; omega
  | succ m ihm =>
    rintro ⟨i, hi, hvar⟩ a
    rw [List.range_succ, List.foldl_append]
    simp only [List.foldl_cons, List.foldl_nil]
    by_cases hm : vars.getD m 0 = var
    · rw [if_pos hm]; exact Int.natCast_nonneg m
    · rw [if_neg hm]
      have him : i < m := by
        rcases Nat.lt_succ_iff_lt_or_eq.mp hi with hlt | heq
        · exact hlt
        · subst heq; exact absurd hvar hm
      exact ihm ⟨i, him, hvar⟩ a

theorem findBins_none_exists (pairs : List (Nat × List ℚ)) (values : Nat → ℚ)
    (hnone : findBins pairs values = none) :
    ∃ p ∈ pairs, binSearch p.2 (values p.1) = -1 ∨
      binSearch p.2 (values p.1) = (p.2.length : Int) - 1 := by
  by_contra hno
  push_neg at hno
  rw [findBins_some pairs values
    (fun p hp => ⟨(hno p hp).1, (hno p hp).2⟩)] at hnone
  exact absurd hnone (by simp)

theorem totalCells_eq (h : MixingHandler)
    (hlen : h.fVariables.length = h.fVariableLimits.length) :
    totalCells h = (h.fVariableLimits.map (fun l => (l.length : Int) - 1)).prod := by
  rw [totalCells,
    foldl_mul_map (fun p : Nat × List ℚ => ((p.2.length : Int) - 1)) _ 1, one_mul,
    zip_map_snd_fun (fun l => ((l.length : Int) - 1)) _ _ hlen]

theorem Init_idem (h : MixingHandler) : h.Init.Init = h.Init := rfl

theorem findBins_some_of_inRange (h : MixingHandler) (values : Nat → ℚ)
    (hwf : WF h) (hsort : SortedLims h) (hin : InRange h values) :
    findBins (h.fVariables.zip h.fVariableLimits) values =
      some ((h.fVariables.zip h.fVariableLimits).map
        (fun p => (binSearch p.2 (values p.1), (p.2.length : Int) - 1))) := by
  apply findBins_some
  intro p hp
  obtain ⟨a, b⟩ := p
  obtain ⟨ha, hb⟩ := List.of_mem_zip hp
  have hio := hin (a, b) hp
  have hbad := binSearch_bad_iff b (values a) (hsort b hb) (hwf.2 b hb)
  have hnotbad : ¬(binSearch b (values a) = -1 ∨
      binSearch b (values a) = (b.length : Int) - 1) := by
    rw [hbad]
    push_neg
    exact ⟨hio.1, hio.2⟩
  exact ⟨fun hx => hnotbad (Or.inl hx), fun hx => hnotbad (Or.inr hx)⟩

theorem FindEventCategory_second_call (h : MixingHandler)
    (values values2 : Nat → ℚ) :
    (FindEventCategory ((FindEventCategory h values).2) values2).1 =
      (FindEventCategory h values2).1 ∧
    (FindEventCategory ((FindEventCategory h values).2) values2).2 =
      (FindEventCategory h values).2 := by
  rw [FindEventCategory_snd h values]
  by_cases hlen : h.fVariables.length = 0
  · rw [if_pos hlen]
    exact ⟨rfl, (FindEventCategory_snd h values2).trans (if_pos hlen)⟩
  · rw [if_neg hlen]
    have e1 : h.Init.fVariables = h.fVariables := rfl
    have e2 : h.Init.fVariableLimits = h.fVariableLimits := rfl
    constructor
    · rw [FindEventCategory_fst, FindEventCategory_fst, e1, e2]
    · rw [FindEventCategory_snd, e1, if_neg hlen, Init_idem]

/-! ### Claim theorems -/

/-- C3: in the two-axis configuration with first axis edges `[0, 10, 20, 30]`
(3 bins) and second axis edges `[-1, 1]` (1 bin) registered in that order,
the observable `(axis0 = 15, axis1 = 0)` gets category 1, `(25, 0)` gets
category 2, `(35, 0)` gets the invalid sentinel `-1`, and decoding
category 2 returns bin 2 for axis 0 and bin 0 for axis 1 (independently of
the garbage value of the uninitialized `tempVar`, since both identifiers
are registered). -/
theorem concrete_scenario_categories :
    (FindEventCategory scenarioHandler (scenarioValues 15 0)).1 = 1 ∧
    (FindEventCategory scenarioHandler (scenarioValues 25 0)).1 = 2 ∧
    (FindEventCategory scenarioHandler (scenarioValues 35 0)).1 = -1 ∧
    (∀ junk : Nat, GetBinFromCategory scenarioHandler 0 2 junk = 2) ∧
    (∀ junk : Nat, GetBinFromCategory scenarioHandler 1 2 junk = 0) := by
  refine ⟨by decide, by decide, by decide, fun junk => ?_, fun junk => ?_⟩
  · rw [GetBinFromCategory_junk_indep scenarioHandler 0 2 (by decide) junk 0]
    decide
  · rw [GetBinFromCategory_junk_indep scenarioHandler 1 2 (by decide) junk 0]
    decide

/-- C5: with strictly ascending edges and well-formed state,
`FindEventCategory` returns the sentinel `-1` exactly when no axis is
registered or some registered axis's value lies outside
`[firstEdge, lastEdge)`; and with zero axes `GetBinFromCategory` returns
`-1` for every identifier, category and garbage value. Both functions are
total Lean functions, so the sentinel is a quiet return value, never a
fault. -/
theorem sentinel_characterization (h : MixingHandler) (values : Nat → ℚ)
    (hwf : WF h) (hsort : SortedLims h) :
    ((FindEventCategory h values).1 = -1 ↔
      (h.fVariables = [] ∨ ∃ p ∈ h.fVariables.zip h.fVariableLimits,
        values p.1 < p.2.getD 0 0 ∨ p.2.getD (p.2.length - 1) 0 ≤ values p.1)) ∧
    (h.fVariables = [] → ∀ (var : Nat) (c : Int) (junk : Nat),
      GetBinFromCategory h var c junk = -1) := by
  constructor
  · rw [FindEventCategory_fst]
    by_cases hlen : h.fVariables.length = 0
    · rw [if_pos hlen]
      simp only [List.length_eq_zero] at hlen
      exact ⟨fun _ => Or.inl hlen, fun _ => rfl⟩
    · rw [if_neg hlen]
      have hne : h.fVariables ≠ [] := by
        intro hx; exact hlen (by rw [hx]; rfl)
      constructor
      · intro hm
        cases hfb : findBins (h.fVariables.zip h.fVariableLimits) values with
        | some bs =>
          rw [hfb] at hm
          simp only [] at hm
          exfalso
          have hbnd := findBins_bounds _ values bs hfb
          have := (encodeBins_bounds bs hbnd).1
          omega
        | none =>
          right
          obtain ⟨p, hp, hbad⟩ := findBins_none_exists _ values hfb
          obtain ⟨a, b⟩ := p
          obtain ⟨ha, hb⟩ := List.of_mem_zip hp
          exact ⟨(a, b), hp,
            (binSearch_bad_iff b (values a) (hsort b hb) (hwf.2 b hb)).mp hbad⟩
      · rintro (hnil | ⟨p, hp, hbad⟩)
        · exact absurd hnil hne
        · obtain ⟨a, b⟩ := p
          obtain ⟨ha, hb⟩ := List.of_mem_zip hp
          rw [findBins_none_of_mem _ values (a, b) hp
            ((binSearch_bad_iff b (values a) (hsort b hb) (hwf.2 b hb)).mpr hbad)]
  · intro hnil var c junk
    rw [GetBinFromCategory, if_pos (by rw [hnil]; rfl)]

/-- C5 witness: the empty handler and a one-axis out-of-range input both
yield the sentinel, as the characterization predicts. -/
theorem sentinel_characterization_witness :
    ((FindEventCategory scenarioHandler (scenarioValues 35 0)).1 = -1 ↔
      (scenarioHandler.fVariables = [] ∨
        ∃ p ∈ scenarioHandler.fVariables.zip scenarioHandler.fVariableLimits,
          scenarioValues 35 0 p.1 < p.2.getD 0 0 ∨
            p.2.getD (p.2.length - 1) 0 ≤ scenarioValues 35 0 p.1)) ∧
    (scenarioHandler.fVariables = [] → ∀ (var : Nat) (c : Int) (junk : Nat),
      GetBinFromCategory scenarioHandler var c junk = -1) :=
  sentinel_characterization scenarioHandler (scenarioValues 35 0)
    (by unfold WF; decide) (by unfold SortedLims; decide)

/-- C6: when the requested identifier is registered, the result of
`GetBinFromCategory` does not depend on the garbage value of the
uninitialized `tempVar` (the scan assigns it); when it is not registered
and the axis list is nonempty, there is a configuration where two garbage
values produce two different results — the reference behavior is
unspecified rather than the not-found sentinel. -/
theorem decode_unregistered_unspecified (h : MixingHandler) (var : Nat) (c : Int) :
    (var ∈ h.fVariables →
      ∀ j1 j2 : Nat, GetBinFromCategory h var c j1 = GetBinFromCategory h var c j2) ∧
    (∃ (h0 : MixingHandler) (v0 : Nat) (c0 : Int) (j1 j2 : Nat),
      h0.fVariables ≠ [] ∧ v0 ∉ h0.fVariables ∧
      GetBinFromCategory h0 v0 c0 j1 ≠ GetBinFromCategory h0 v0 c0 j2) := by
  constructor
  · intro hmem j1 j2
    exact GetBinFromCategory_junk_indep h var c hmem j1 j2
  · exact ⟨scenarioHandler, 5, 2, 0, 1, by decide, by decide, by decide⟩

/-- C6 witness: decoding axis 0 of the scenario configuration is
independent of the garbage value. -/
theorem decode_unregistered_unspecified_witness :
    GetBinFromCategory scenarioHandler 0 2 3 = GetBinFromCategory scenarioHandler 0 2 7 :=
  (decode_unregistered_unspecified scenarioHandler 0 2).1 (by decide) 3 7

/-- C7: `GetMixingVariable` returns `-1` exactly for identifiers that were
never registered, and returns the position of the last matching
registration for identifiers that occur (last-write-wins). -/
theorem lookup_last_write_wins (h : MixingHandler) (var : Nat) :
    (GetMixingVariable h var = -1 ↔ var ∉ h.fVariables) ∧
    (∀ k : Nat, k < h.fVariables.length → h.fVariables.getD k 0 = var →
      (∀ j, k < j → j < h.fVariables.length → h.fVariables.getD j 0 ≠ var) →
      GetMixingVariable h var = (k : Int)) := by
  constructor
  · constructor
    · intro hm hmem
      rcases List.mem_iff_getElem.mp hmem with ⟨i, hi, hvi⟩
      have hge := scanInt_fold_nonneg h.fVariables var h.fVariables.length
        ⟨i, hi, by rw [List.getD_eq_getElem _ _ hi]; exact hvi⟩ (-1)
      rw [GetMixingVariable] at hm
      omega
    · intro hmem
      rw [GetMixingVariable]
      apply scanInt_fold_none
      intro i hi hvi
      exact hmem (by rw [List.getD_eq_getElem _ _ hi] at hvi; rw [← hvi]; exact List.getElem_mem hi)
  · intro k hk hkv hlast
    exact scanInt_fold_last h.fVariables var h.fVariables.length k hk hkv hlast (-1)

/-- C7 witness: in the scenario configuration, identifier 1 is found at
axis position 1 and identifier 7 is absent. -/
theorem lookup_last_write_wins_witness :
    GetMixingVariable scenarioHandler 1 = 1 ∧ GetMixingVariable scenarioHandler 7 = -1 := by
  constructor
  · exact (lookup_last_write_wins scenarioHandler 1).2 1 (by decide) (by decide)
      (by intro j h1 h2
          have hL : scenarioHandler.fVariables.length = 2 := rfl
          rw [hL] at h2
          omega)
  · exact (lookup_last_write_wins scenarioHandler 7).1.mpr (by decide)

/-- C8: with at least one registered axis and an in-range observable
vector, a second `FindEventCategory` call on the state returned by the
first (which may have performed the lazy `Init`) produces the identical
category and leaves the state fixed: the lazy initialization is idempotent
and does not alter anything the result depends on. -/
theorem categorize_idempotent (h : MixingHandler) (values : Nat → ℚ)
    (hne : h.fVariables ≠ []) (hin : InRange h values) :
    (FindEventCategory ((FindEventCategory h values).2) values).1 =
      (FindEventCategory h values).1 ∧
    (FindEventCategory ((FindEventCategory h values).2) values).2 =
      (FindEventCategory h values).2 :=
  FindEventCategory_second_call h values values

/-- C8 witness: repeated categorization of the in-range scenario input. -/
theorem categorize_idempotent_witness :
    (FindEventCategory ((FindEventCategory scenarioHandler (scenarioValues 15 0)).2)
        (scenarioValues 15 0)).1 =
      (FindEventCategory scenarioHandler (scenarioValues 15 0)).1 ∧
    (FindEventCategory ((FindEventCategory scenarioHandler (scenarioValues 15 0)).2)
        (scenarioValues 15 0)).2 =
      (FindEventCategory scenarioHandler (scenarioValues 15 0)).2 :=
  categorize_idempotent scenarioHandler (scenarioValues 15 0) (by decide)
    (by unfold InRange; decide)

/-- C9: the state returned by `FindEventCategory` keeps the registered
variable list and all bin-edge sequences unchanged (only the
initialization flag may change), and a second call — with any observable
vector — returns exactly the same state: after the lazy transition the
instance is fixed. `GetMixingVariable`, `GetMixingVariableLimits` and
`GetBinFromCategory` are `const` in the source and are embedded as pure
functions of the state, so they cannot modify anything. -/
theorem query_frame_state (h : MixingHandler) (values values2 : Nat → ℚ) :
    (FindEventCategory h values).2.fVariables = h.fVariables ∧
    (FindEventCategory h values).2.fVariableLimits = h.fVariableLimits ∧
    (h.fIsInitialized = true → (FindEventCategory h values).2 = h) ∧
    (FindEventCategory ((FindEventCategory h values).2) values2).2 =
      (FindEventCategory h values).2 := by
  refine ⟨?_, ?_, ?_, (FindEventCategory_second_call h values values2).2⟩
  · rw [FindEventCategory_snd]
    by_cases hlen : h.fVariables.length = 0
    · rw [if_pos hlen]
    · rw [if_neg hlen]; rfl
  · rw [FindEventCategory_snd]
    by_cases hlen : h.fVariables.length = 0
    · rw [if_pos hlen]
    · rw [if_neg hlen]; rfl
  · intro hini
    rw [FindEventCategory_snd]
    by_cases hlen : h.fVariables.length = 0
    · rw [if_pos hlen]
    · rw [if_neg hlen]
      exact Init_of_initialized h hini

/-- C9 witness: the frame property evaluated on the already-initialized
scenario configuration. -/
theorem query_frame_state_witness :
    (FindEventCategory scenarioHandler.Init (scenarioValues 15 0)).2.fVariables =
      scenarioHandler.Init.fVariables ∧
    (FindEventCategory scenarioHandler.Init (scenarioValues 15 0)).2.fVariableLimits =
      scenarioHandler.Init.fVariableLimits ∧
    (scenarioHandler.Init.fIsInitialized = true →
      (FindEventCategory scenarioHandler.Init (scenarioValues 15 0)).2 =
        scenarioHandler.Init) ∧
    (FindEventCategory
        ((FindEventCategory scenarioHandler.Init (scenarioValues 15 0)).2)
        (scenarioValues 25 0)).2 =
      (FindEventCategory scenarioHandler.Init (scenarioValues 15 0)).2 :=
  query_frame_state scenarioHandler.Init (scenarioValues 15 0) (scenarioValues 25 0)

/-- C10: the `std::vector` overload of `AddMixingVariable` with `nBins`
not exceeding the vector length produces exactly the pointer overload's
result on an array holding the vector's first `nBins` elements: same
appended identifier, same `nBins` stored edges, same usage-registry
effect. -/
theorem register_overload_equiv (h : MixingHandler) (reg : VarRegistry)
    (var nBins : Nat) (binLims : List ℚ) (hlen : nBins ≤ binLims.length) :
    AddMixingVariableVec h reg var nBins binLims =
      AddMixingVariable h reg var nBins (fun i => (binLims.take nBins).getD i 0) ∧
    (AddMixingVariableVec h reg var nBins binLims).1.fVariables =
      h.fVariables ++ [var] ∧
    (AddMixingVariableVec h reg var nBins binLims).1.fVariableLimits =
      h.fVariableLimits ++ [binLims.take nBins] ∧
    (AddMixingVariableVec h reg var nBins binLims).2 = SetUseVariable reg var := by
  have hmap : (List.range nBins).map (fun i => binLims.getD i 0) =
      binLims.take nBins :=
    map_range_getD_take binLims nBins hlen
  have hmap2 : (List.range nBins).map (fun i => (binLims.take nBins).getD i 0) =
      binLims.take nBins :=
    (map_range_getD_take (binLims.take nBins) nBins (by simp [hlen])).trans (by simp)
  refine ⟨?_, rfl, ?_, rfl⟩
  · simp only [AddMixingVariableVec, AddMixingVariable, hmap, hmap2]
  · simp only [AddMixingVariableVec, AddMixingVariable, hmap]

/-- C10 witness: registering the four scenario edges through the vector
overload coincides with the pointer overload on the copied array. -/
theorem register_overload_equiv_witness :
    AddMixingVariableVec MixingHandler.mk0 ⟨fun _ => false⟩ 0 4 [0, 10, 20, 30] =
      AddMixingVariable MixingHandler.mk0 ⟨fun _ => false⟩ 0 4
        (fun i => (([0, 10, 20, 30] : List ℚ).take 4).getD i 0) ∧
    (AddMixingVariableVec MixingHandler.mk0 ⟨fun _ => false⟩ 0 4
        [0, 10, 20, 30]).1.fVariables = MixingHandler.mk0.fVariables ++ [0] ∧
    (AddMixingVariableVec MixingHandler.mk0 ⟨fun _ => false⟩ 0 4
        [0, 10, 20, 30]).1.fVariableLimits =
      MixingHandler.mk0.fVariableLimits ++ [([0, 10, 20, 30] : List ℚ).take 4] ∧
    (AddMixingVariableVec MixingHandler.mk0 ⟨fun _ => false⟩ 0 4
        [0, 10, 20, 30]).2 = SetUseVariable ⟨fun _ => false⟩ 0 :=
  register_overload_equiv MixingHandler.mk0 ⟨fun _ => false⟩ 0 4 [0, 10, 20, 30]
    (by decide)

/-- C4: for an axis registered with strictly ascending edges, the bin
locator used by `FindEventCategory` (`BinarySearch` over that axis's
edges) assigns the axis's value to bin `i` exactly when
`edge_i ≤ value < edge_(i+1)` (half-open bins, equality with an interior
edge belongs to the bin it opens); a value below the first edge or at or
above the last edge makes the whole categorization return the sentinel. -/
theorem half_open_bin_boundaries (h : MixingHandler) (values : Nat → ℚ)
    (var : Nat) (lims : List ℚ)
    (hmem : (var, lims) ∈ h.fVariables.zip h.fVariableLimits)
    (hsort : lims.Pairwise (· < ·)) (h2 : 2 ≤ lims.length) :
    (∀ i : Nat, i + 1 < lims.length →
      (binSearch lims (values var) = (i : Int) ↔
        lims.getD i 0 ≤ values var ∧ values var < lims.getD (i + 1) 0)) ∧
    ((values var < lims.getD 0 0 ∨ lims.getD (lims.length - 1) 0 ≤ values var) →
      (FindEventCategory h values).1 = -1) := by
  constructor
  · exact binSearch_eq_iff lims (values var) hsort
  · intro hbad
    have hnone := findBins_none_of_mem _ values (var, lims) hmem
      ((binSearch_bad_iff lims (values var) hsort h2).mpr hbad)
    rw [FindEventCategory_fst]
    by_cases hlen : h.fVariables.length = 0
    · rw [if_pos hlen]
    · rw [if_neg hlen, hnone]

/-- C4 witness: on axis 0 of the scenario configuration the value 35 is at
or above the last edge, so the whole call returns the sentinel. -/
theorem half_open_bin_boundaries_witness :
    (∀ i : Nat, i + 1 < ([0, 10, 20, 30] : List ℚ).length →
      (binSearch [0, 10, 20, 30] (scenarioValues 35 0 0) = (i : Int) ↔
        ([0, 10, 20, 30] : List ℚ).getD i 0 ≤ scenarioValues 35 0 0 ∧
          scenarioValues 35 0 0 < ([0, 10, 20, 30] : List ℚ).getD (i + 1) 0)) ∧
    ((scenarioValues 35 0 0 < ([0, 10, 20, 30] : List ℚ).getD 0 0 ∨
        ([0, 10, 20, 30] : List ℚ).getD (([0, 10, 20, 30] : List ℚ).length - 1) 0 ≤
          scenarioValues 35 0 0) →
      (FindEventCategory scenarioHandler (scenarioValues 35 0)).1 = -1) :=
  half_open_bin_boundaries scenarioHandler (scenarioValues 35 0) 0 [0, 10, 20, 30]
    (by decide) (by decide) (by decide)

/-- C2: for a well-formed, strictly ascending configuration with at least
one axis and an in-range observable vector, `FindEventCategory` returns
exactly the mixed-radix sum `∑ binIndex_i · ∏_(j>i) binCount_j` over the
axes in registration order, and that value lies in `[0, totalCells)`. -/
theorem categorize_mixed_radix (h : MixingHandler) (values : Nat → ℚ)
    (hwf : WF h) (hsort : SortedLims h) (hne : h.fVariables ≠ [])
    (hin : InRange h values) :
    (FindEventCategory h values).1 =
      (∑ i ∈ Finset.range h.fVariables.length,
        binSearch (h.fVariableLimits.getD i []) (values (h.fVariables.getD i 0)) *
          ((h.fVariableLimits.drop (i + 1)).map
            (fun l => (l.length : Int) - 1)).prod) ∧
    0 ≤ (FindEventCategory h values).1 ∧
    (FindEventCategory h values).1 < totalCells h := by
  have hlen0 : ¬ h.fVariables.length = 0 := fun hx => hne (List.length_eq_zero.mp hx)
  have hLL : h.fVariables.length = h.fVariableLimits.length := hwf.1
  have hsome := findBins_some_of_inRange h values hwf hsort hin
  set pairs := h.fVariables.zip h.fVariableLimits with hpairs
  set bs := pairs.map
    (fun p => (binSearch p.2 (values p.1), (p.2.length : Int) - 1)) with hbs
  have hplen : pairs.length = h.fVariables.length := by
    rw [hpairs, List.length_zip, ← hLL, Nat.min_self]
  have hbslen : bs.length = h.fVariables.length := by
    rw [hbs, List.length_map, hplen]
  have hfst : (FindEventCategory h values).1 = encodeBins bs := by
    rw [FindEventCategory_fst, if_neg hlen0, ← hpairs, hsome]
  have hbnd := findBins_bounds pairs values bs hsome
  have hsnd : bs.map Prod.snd =
      h.fVariableLimits.map (fun l => (l.length : Int) - 1) := by
    rw [hbs, List.map_map, hpairs]
    exact zip_map_snd_fun (fun l : List ℚ => (l.length : Int) - 1) h.fVariables
      h.fVariableLimits hLL
  refine ⟨?_, ?_, ?_⟩
  · rw [hfst, encodeBins_eq_sum, hbslen]
    apply Finset.sum_congr rfl
    intro i hi
    have hi' : i < h.fVariables.length := Finset.mem_range.mp hi
    have hiL : i < h.fVariableLimits.length := by omega
    have hip : i < pairs.length := by rw [hplen]; exact hi'
    have hgd : bs.getD i (0, 1) =
        (binSearch (h.fVariableLimits.getD i []) (values (h.fVariables.getD i 0)),
          ((h.fVariableLimits.getD i []).length : Int) - 1) := by
      rw [hbs, hpairs]
      rw [List.getD_eq_getElem _ _
        (by rw [List.length_map, List.length_zip, ← hLL, Nat.min_self]; exact hi')]
      rw [List.getElem_map]
      simp only [List.getElem_zip]
      rw [List.getD_eq_getElem h.fVariableLimits _ hiL,
        List.getD_eq_getElem h.fVariables _ hi']
    have hdm : (bs.drop (i + 1)).map Prod.snd =
        (h.fVariableLimits.drop (i + 1)).map (fun l => (l.length : Int) - 1) := by
      rw [hbs, hpairs, ← List.map_drop, List.map_map, zip_drop]
      exact zip_map_snd_fun (fun l : List ℚ => (l.length : Int) - 1) _ _
        (by simp [hLL])
    rw [hgd, hdm]
  · rw [hfst]
    exact (encodeBins_bounds bs hbnd).1
  · rw [hfst]
    have hb := (encodeBins_bounds bs hbnd).2
    rw [hsnd] at hb
    rw [totalCells_eq h hLL]
    exact hb

/-- C2 witness: the scenario input `(15, 0)` evaluates the mixed-radix
formula and the bounds on a concrete configuration. -/
theorem categorize_mixed_radix_witness :
    (FindEventCategory scenarioHandler (scenarioValues 15 0)).1 =
      (∑ i ∈ Finset.range scenarioHandler.fVariables.length,
        binSearch (scenarioHandler.fVariableLimits.getD i [])
            (scenarioValues 15 0 (scenarioHandler.fVariables.getD i 0)) *
          ((scenarioHandler.fVariableLimits.drop (i + 1)).map
            (fun l => (l.length : Int) - 1)).prod) ∧
    0 ≤ (FindEventCategory scenarioHandler (scenarioValues 15 0)).1 ∧
    (FindEventCategory scenarioHandler (scenarioValues 15 0)).1 <
      totalCells scenarioHandler :=
  categorize_mixed_radix scenarioHandler (scenarioValues 15 0)
    (by unfold WF; decide) (by unfold SortedLims; decide) (by decide)
    (by unfold InRange; decide)

/-- C1: for every well-formed configuration with at least one axis and
pairwise-distinct identifiers, and every category `c` in
`[0, totalCells)`, decoding each axis from `c` with `GetBinFromCategory`
and re-encoding the resulting per-axis bins with the mixed-radix
weighting used by `FindEventCategory` (`encodeBins` over the per-axis
bin counts) reproduces `c`; consequently the category is a function of
the per-axis bins alone: two observable vectors binned identically
receive the same category. -/
theorem decode_encode_roundtrip (h : MixingHandler) (c : Int) (junk : Nat)
    (hwf : WF h) (hnd : h.fVariables.Nodup) (hne : h.fVariables ≠ [])
    (hc0 : 0 ≤ c) (hc1 : c < totalCells h) :
    encodeBins ((List.range h.fVariables.length).map
      (fun i => (GetBinFromCategory h (h.fVariables.getD i 0) c junk,
        ((h.fVariableLimits.getD i []).length : Int) - 1))) = c ∧
    (∀ values1 values2 : Nat → ℚ,
      findBins (h.fVariables.zip h.fVariableLimits) values1 =
        findBins (h.fVariables.zip h.fVariableLimits) values2 →
      (FindEventCategory h values1).1 = (FindEventCategory h values2).1) := by
  have hLL : h.fVariables.length = h.fVariableLimits.length := hwf.1
  have hlens1 : ∀ l ∈ h.fVariableLimits, 1 ≤ l.length := fun l hl => by
    have := hwf.2 l hl; omega
  have hm : ((c.toNat : Int)) = c := Int.toNat_of_nonneg hc0
  have hprod : totalCells h =
      (((h.fVariableLimits.map (fun l => l.length - 1)).prod : Nat) : Int) := by
    rw [totalCells_eq h hLL, prod_len_cast h.fVariableLimits hlens1]
  have hmlt : c.toNat < (h.fVariableLimits.map (fun l => l.length - 1)).prod := by
    rw [hprod] at hc1
    omega
  have hWcast : ∀ i : Nat, ((h.fVariableLimits.drop (i + 1)).map
      (fun l => (l.length : Int) - 1)).prod =
      ((((h.fVariableLimits.map (fun l => l.length - 1)).drop (i + 1)).prod : Nat) : Int) := by
    intro i
    rw [prod_len_cast _ (fun l hl => hlens1 l (List.mem_of_mem_drop hl)),
      List.map_drop]
  have hWpos : ∀ i : Nat, (0 : Int) < ((h.fVariableLimits.drop (i + 1)).map
      (fun l => (l.length : Int) - 1)).prod := by
    intro i
    rw [hWcast i]
    have := prod_len_pos (h.fVariableLimits.drop (i + 1))
      (fun l hl => hwf.2 l (List.mem_of_mem_drop hl))
    rw [List.map_drop] at this
    exact_mod_cast this
  have hBcast : ∀ i : Nat, i < h.fVariableLimits.length →
      ((h.fVariableLimits.getD i []).length : Int) - 1 =
        (((h.fVariableLimits.map (fun l => l.length - 1)).getD i 1 : Nat) : Int) := by
    intro i hiL
    rw [List.getD_eq_getElem (h.fVariableLimits.map _) _
      (by rw [List.length_map]; exact hiL)]
    rw [List.getElem_map, List.getD_eq_getElem _ _ hiL]
    have h1 : 1 ≤ (h.fVariableLimits[i]).length := by
      have := hwf.2 _ (List.getElem_mem hiL); omega
    rw [Nat.cast_sub h1, Nat.cast_one]
  have hdec : ∀ i, i < h.fVariables.length →
      GetBinFromCategory h (h.fVariables.getD i 0) c junk =
        ((c.toNat / ((h.fVariableLimits.map (fun l => l.length - 1)).drop (i + 1)).prod %
          (h.fVariableLimits.map (fun l => l.length - 1)).getD i 1 : Nat) : Int) := by
    intro i hi
    have hiL : i < h.fVariableLimits.length := by omega
    have hlast : ∀ j, i < j → j < h.fVariables.length →
        h.fVariables.getD j 0 ≠ h.fVariables.getD i 0 := by
      intro j hij hj
      have hpw := List.pairwise_iff_getElem.mp hnd i j hi hj hij
      rw [List.getD_eq_getElem _ _ hj, List.getD_eq_getElem _ _ hi]
      exact fun hx => hpw hx.symm
    rw [GetBinFromCategory_eq h (h.fVariables.getD i 0) c junk hLL i hi rfl hlast]
    have h2i : 2 ≤ (h.fVariableLimits.getD i []).length :=
      hwf.2 _ (by rw [List.getD_eq_getElem _ _ hiL]; exact List.getElem_mem hiL)
    have hB0 : (0 : Int) ≤ ((h.fVariableLimits.getD i []).length : Int) - 1 := by
      have := h2i; omega
    rw [tmod_tdiv_digit c _ _ hc0 (hWpos i) hB0]
    rw [hWcast i, hBcast i hiL, ← hm]
    rw [← Int.ofNat_ediv, ← Int.ofNat_emod]
    rw [Int.toNat_natCast]
  constructor
  · rw [encodeBins_eq_sum]
    rw [show ((List.range h.fVariables.length).map
        (fun i => (GetBinFromCategory h (h.fVariables.getD i 0) c junk,
          ((h.fVariableLimits.getD i []).length : Int) - 1))).length =
        h.fVariables.length by simp]
    have hsummand : ∀ i ∈ Finset.range h.fVariables.length,
        (((List.range h.fVariables.length).map
          (fun i => (GetBinFromCategory h (h.fVariables.getD i 0) c junk,
            ((h.fVariableLimits.getD i []).length : Int) - 1))).getD i (0, 1)).1 *
          ((((List.range h.fVariables.length).map
            (fun i => (GetBinFromCategory h (h.fVariables.getD i 0) c junk,
              ((h.fVariableLimits.getD i []).length : Int) - 1))).drop (i + 1)).map
                Prod.snd).prod =
        ((c.toNat /
            ((h.fVariableLimits.map (fun l => l.length - 1)).drop (i + 1)).prod %
            (h.fVariableLimits.map (fun l => l.length - 1)).getD i 1 *
          ((h.fVariableLimits.map (fun l => l.length - 1)).drop (i + 1)).prod : Nat) :
            Int) := by
      intro i hi
      have hi' : i < h.fVariables.length := Finset.mem_range.mp hi
      rw [getD_map_range _ (((0 : Int), (1 : Int))) h.fVariables.length i hi']
      have hdm : ((((List.range h.fVariables.length).map
          (fun i => (GetBinFromCategory h (h.fVariables.getD i 0) c junk,
            ((h.fVariableLimits.getD i []).length : Int) - 1))).drop (i + 1)).map
              Prod.snd) =
          (h.fVariableLimits.drop (i + 1)).map (fun l => (l.length : Int) - 1) := by
        rw [← List.map_drop, List.map_map, drop_range_eq]
        exact range'_map_getD h.fVariableLimits (fun l => (l.length : Int) - 1)
          (h.fVariables.length - (i + 1)) (i + 1) (by omega)
      rw [hdm, hdec i hi', hWcast i]
      push_cast
      ring
    rw [Finset.sum_congr rfl hsummand]
    rw [← Nat.cast_sum]
    rw [show h.fVariables.length =
        (h.fVariableLimits.map (fun l => l.length - 1)).length by
      rw [List.length_map]; omega]
    rw [natMixedRadix _ c.toNat hmlt]
    exact hm
  · intro v1 v2 heq
    rw [FindEventCategory_fst, FindEventCategory_fst, heq]

/-- C1 witness: category 2 of the scenario configuration decodes to bins
`(2, 0)` and re-encodes to 2. -/
theorem decode_encode_roundtrip_witness :
    encodeBins ((List.range scenarioHandler.fVariables.length).map
      (fun i => (GetBinFromCategory scenarioHandler
          (scenarioHandler.fVariables.getD i 0) 2 0,
        ((scenarioHandler.fVariableLimits.getD i []).length : Int) - 1))) = 2 ∧
    (∀ values1 values2 : Nat → ℚ,
      findBins (scenarioHandler.fVariables.zip scenarioHandler.fVariableLimits)
          values1 =
        findBins (scenarioHandler.fVariables.zip scenarioHandler.fVariableLimits)
          values2 →
      (FindEventCategory scenarioHandler values1).1 =
        (FindEventCategory scenarioHandler values2).1) :=
  decode_encode_roundtrip scenarioHandler 2 0 (by unfold WF; decide) (by decide)
    (by decide) (by decide) (by decide)
